import Mathlib

/-!
Verification of the trajectory execution manager and `JointState` code of this
repository, as a shallow embedding in Lean 4.

Part 1 embeds the controller bookkeeping of
`trajectory_execution_manager.h` (`ControllerInformation` and its ordering are
inline in the header; the selection, distribution, activation, validation and
monitoring routines are declared in the header but their translation unit is
not part of the sources, so those are modelled from the specification, as
marked on each definition).

Part 2 embeds `planning_models::KinematicState::JointState` from the
`kinematic_state` translation unit (the `setVariableValues` overload family).

All definitions come first, then the theorems about them.
-/

/-- Embeds `TrajectoryExecutionManager::ControllerInformation` from
`trajectory_execution_manager.h`: `name_`, `joints_` (a `std::set` of joint
names), `overlapping_controllers_`, the `active`/`default` flags of `state_`,
and `last_update_` (modelled as a natural-number timestamp). -/
structure ControllerInformation where
  name : String
  joints : Finset String
  overlappingControllers : Finset String
  active : Bool
  isDefault : Bool
  lastUpdate : Nat
deriving DecidableEq

/-- Embeds `ControllerInformation::operator<` from the header:
`if (joints_.size() != other.joints_.size()) return joints_.size() < other.joints_.size();
return name_ < other.name_;` -/
def ControllerInformation.lt (a b : ControllerInformation) : Bool :=
  if a.joints.card ≠ b.joints.card then decide (a.joints.card < b.joints.card)
  else decide (a.name < b.name)

/-- The reflexive companion of `ControllerInformation.lt`: a lexicographic
comparison by joint-set size, then by name. -/
def ControllerInformation.le (a b : ControllerInformation) : Prop :=
  a.joints.card < b.joints.card ∨ (a.joints.card = b.joints.card ∧ a.name ≤ b.name)

/-- Embeds lookup in `known_controllers_` (a `std::map` from controller name to
`ControllerInformation`), represented as an association by name. -/
def lookupCI (registry : List ControllerInformation) (n : String) :
    Option ControllerInformation :=
  registry.find? (fun ci => decide (ci.name = n))

/-- Selects the least element of a list under a boolean strict comparison,
keeping the earliest element on ties; `none` on the empty list. -/
def minBy {α : Type} (lt : α → α → Bool) : List α → Option α
  | [] => none
  | x :: xs =>
    match minBy lt xs with
    | none => some x
    | some m => if lt m x then some m else some x

/-- Does the registry record controller `c` as actuating joint `j`? -/
def controllerListsJoint (registry : List ControllerInformation) (c j : String) :
    Bool :=
  match lookupCI registry c with
  | some ci => decide (j ∈ ci.joints)
  | none => false

/-- The registry records of the given controllers that list joint `j`. -/
def jointCandidates (registry : List ControllerInformation)
    (controllers : List String) (j : String) : List ControllerInformation :=
  (controllers.filterMap (lookupCI registry)).filter (fun ci => decide (j ∈ ci.joints))

/-- Modelled from the spec: the body of
`TrajectoryExecutionManager::distributeTrajectory` (declared in the header,
translation unit not in the sources). Among the selected controllers that list
joint `j`, the joint is assigned to the one with the smaller joint-set size,
ties broken by controller name — the minimum under
`ControllerInformation::operator<`. -/
def bestControllerInfo (registry : List ControllerInformation)
    (controllers : List String) (j : String) : Option ControllerInformation :=
  minBy ControllerInformation.lt (jointCandidates registry controllers j)

/-- The name of the controller that `distributeTrajectory` assigns joint `j` to. -/
def bestController (registry : List ControllerInformation)
    (controllers : List String) (j : String) : Option String :=
  (bestControllerInfo registry controllers j).map (fun ci => ci.name)

/-- Modelled from the spec: the sub-trajectory (represented by its list of
joint names) handed to controller `c` by `distributeTrajectory`: the joints of
the original trajectory that are assigned to `c`. -/
def partForController (registry : List ControllerInformation)
    (trajJoints : List String) (controllers : List String) (c : String) :
    List String :=
  trajJoints.filter (fun j => decide (bestController registry controllers j = some c))

/-- Modelled from the spec: `TrajectoryExecutionManager::distributeTrajectory`
(declared in the header, translation unit not in the sources). A trajectory is
represented by the list of its joint names; the waypoint rows are reindexed
alongside the names and carry no extra information for the partition
properties. The operation fails when some joint of the trajectory is covered by
no selected controller, and otherwise returns one part per controller. -/
def distributeTrajectory (registry : List ControllerInformation)
    (trajJoints : List String) (controllers : List String) :
    Option (List (List String)) :=
  if trajJoints.all (fun j => (bestController registry controllers j).isSome) then
    some (controllers.map (partForController registry trajJoints controllers))
  else none

/-- Is controller `c` recorded as active in the registry? -/
def isActiveB (registry : List ControllerInformation) (c : String) : Bool :=
  match lookupCI registry c with
  | some ci => ci.active
  | none => false

/-- Modelled from the spec: the coverage check of
`TrajectoryExecutionManager::checkControllerCombination` — do the given
controllers actuate every actuated joint? -/
def coversB (registry : List ControllerInformation) (controllers : List String)
    (actuated : List String) : Bool :=
  actuated.all (fun j => controllers.any (fun c => controllerListsJoint registry c j))

/-- Number of already-active controllers in a combination (selection score). -/
def comboActiveCount (registry : List ControllerInformation)
    (cs : List String) : Nat :=
  (cs.filter (fun c => isActiveB registry c)).length

/-- Sum of the joint-set sizes of a combination (selection tie-break score). -/
def comboJointsSum (registry : List ControllerInformation) (cs : List String) : Nat :=
  (cs.map (fun c =>
    match lookupCI registry c with
    | some ci => ci.joints.card
    | none => 0)).foldr (fun a b => a + b) 0

/-- Modelled from the spec: the selection preference between two covering
combinations — more already-active controllers first, then the smaller total
joint count; earlier-enumerated combinations win ties. -/
def comboBetter (registry : List ControllerInformation) (a b : List String) : Bool :=
  if comboActiveCount registry a ≠ comboActiveCount registry b then
    decide (comboActiveCount registry b < comboActiveCount registry a)
  else decide (comboJointsSum registry a < comboJointsSum registry b)

/-- Modelled from the spec: `TrajectoryExecutionManager::findControllers`
(declared in the header, translation unit not in the sources). Enumerates all
combinations of exactly `controllerCount` of the available controllers, keeps
those that cover the actuated joints, and returns the best-scoring one. -/
def findControllers (registry : List ControllerInformation)
    (actuated : List String) (controllerCount : Nat)
    (available : List String) : Option (List String) :=
  minBy (comboBetter registry)
    ((List.sublistsLen controllerCount available).filter
      (fun cs => coversB registry cs actuated))

/-- Modelled from the spec: the iterative-deepening loop of
`TrajectoryExecutionManager::selectControllers` — try combination sizes
`1, 2, …, n` in increasing order and return the first success. -/
def selectUpTo (registry : List ControllerInformation) (actuated : List String)
    (available : List String) : Nat → Option (List String)
  | 0 => none
  | n + 1 =>
    match selectUpTo registry actuated available n with
    | some sel => some sel
    | none => findControllers registry actuated (n + 1) available

/-- Modelled from the spec: `TrajectoryExecutionManager::selectControllers`
(declared in the header, translation unit not in the sources). -/
def selectControllers (registry : List ControllerInformation)
    (actuated : List String) (available : List String) : Option (List String) :=
  selectUpTo registry actuated available available.length

/-- Embeds `TrajectoryExecutionManager::TrajectoryExecutionContext` from the
header: the selected controllers and the trajectory parts (each part
represented by its list of joint names). -/
structure TrajectoryExecutionContext where
  controllers : List String
  trajectoryParts : List (List String)
deriving DecidableEq

/-- Modelled from the spec: `TrajectoryExecutionManager::configure` (declared
in the header, translation unit not in the sources) — select controllers for
the actuated joints and split the trajectory accordingly; fail when the
trajectory has no joints, no cover exists, or distribution fails. -/
def configure (registry : List ControllerInformation) (trajJoints : List String)
    (available : List String) : Option TrajectoryExecutionContext :=
  if trajJoints = [] then none
  else
    match selectControllers registry trajJoints available with
    | none => none
    | some sel =>
      match distributeTrajectory registry trajJoints sel with
      | none => none
      | some parts => some ⟨sel, parts⟩

/-- The activation/deactivation request issued to the controller-manager
collaborator (`switchControllers`). -/
structure SwitchCommand where
  activate : List String
  deactivate : List String

/-- Modelled from the spec:
`TrajectoryExecutionManager::ensureActiveControllers` (declared in the header,
translation unit not in the sources). With `manage_controllers` false it
succeeds iff every requested controller is already active and issues no switch;
otherwise it computes the controllers to activate and the active conflicting
controllers to deactivate, issues one switch command to the collaborator
(represented by the `switchOk` capability) and returns the collaborator's
verdict. The second component is the switch command issued, if any. -/
def ensureActiveControllers (manage : Bool)
    (registry : List ControllerInformation) (switchOk : SwitchCommand → Bool)
    (names : List String) : Bool × Option SwitchCommand :=
  if manage then
    let toActivate := names.filter (fun c => ! isActiveB registry c)
    let conflicting := (registry.filter (fun ci =>
      ci.active && ! (names.contains ci.name) && names.any (fun c =>
        match lookupCI registry c with
        | some cj => decide ((ci.joints ∩ cj.joints).Nonempty)
        | none => false))).map (fun ci => ci.name)
    let cmd : SwitchCommand := ⟨toActivate, conflicting⟩
    (switchOk cmd, some cmd)
  else (names.all (fun c => isActiveB registry c), none)

/-- Modelled from the spec: `TrajectoryExecutionManager::validate` (declared in
the header, translation unit not in the sources). Each part contributes its
first waypoint as (joint name, target value) pairs; `jointDistance` abstracts
the collaborator-side per-joint distance (shortest-angle for revolute joints,
plain absolute difference for prismatic ones) between the target value and the
current state; a tolerance of `0` disables validation and returns success
immediately. -/
def validate (tolerance : ℚ) (jointDistance : String → ℚ → ℚ → ℚ)
    (current : String → ℚ) (firstWaypoints : List (List (String × ℚ))) : Bool :=
  if tolerance = 0 then true
  else firstWaypoints.all (fun wp =>
    wp.all (fun jv => decide (jointDistance jv.1 jv.2 (current jv.1) ≤ tolerance)))

/-- Embeds `moveit_controller_manager::ExecutionStatus` (the terminal statuses
named by the header and the spec). -/
inductive ExecutionStatus where
  | unknown
  | succeeded
  | preempted
  | timedOut
  | aborted
  | failed
deriving DecidableEq

/-- The observable façade state used by `waitForExecution`: whether the
sequential executor is idle (`execution_complete_`), whether the continuous
(pushAndExecute) executor is active, its queue
(`continuous_execution_queue_`, contexts abstracted to numbers), and
`last_execution_status_`. -/
structure ManagerState where
  executionComplete : Bool
  continuousActive : Bool
  continuousQueue : List Nat
  lastExecutionStatus : ExecutionStatus

/-- Modelled from the spec: stopping the continuous executor cancels its
current handles and clears its queue. -/
def stopContinuousExecution (s : ManagerState) : ManagerState :=
  { s with continuousActive := false, continuousQueue := [] }

/-- Modelled from the spec: `TrajectoryExecutionManager::waitForExecution`
(declared in the header, translation unit not in the sources). The call first
stops the continuous executor, then blocks until the sequential executor is
idle; blocking is modelled by returning `none` while the executor is still
busy and `some last_execution_status_` once it is idle. The returned state is
the state after the call acted. -/
def waitForExecution (s : ManagerState) : Option ExecutionStatus × ManagerState :=
  let s1 := stopContinuousExecution s
  if s1.executionComplete then (some s1.lastExecutionStatus, s1) else (none, s1)

/-- Association-list lookup by key, as `std::map::find` on the model of a
`std::map` (an ascending-key association list). -/
def lookupMap {β : Type} : List (String × β) → String → Option β
  | [], _ => none
  | p :: t, k => if k = p.1 then some p.2 else lookupMap t k

/-- One dispatched part of a context, as needed by duration monitoring: the
controller executing it and the time stamp of its last waypoint. -/
structure TrajectoryPart where
  controller : String
  lastWaypointTime : ℚ

/-- Controller-specific override of a duration parameter, falling back to the
global value (`controller_allowed_execution_duration_scaling_` /
`controller_allowed_goal_duration_margin_` over their global defaults). -/
def controllerParam (overrides : List (String × ℚ)) (globalValue : ℚ)
    (c : String) : ℚ :=
  match lookupMap overrides c with
  | some v => v
  | none => globalValue

/-- Modelled from the spec: the per-part allowed durations computed by the
duration monitor inside `executePart` — the part's last waypoint time
multiplied by the controller-specific (or global) scaling, plus the
controller-specific (or global) goal margin. -/
def expectedDurations (scalingOverrides marginOverrides : List (String × ℚ))
    (globalScaling globalMargin : ℚ) (parts : List TrajectoryPart) : List ℚ :=
  parts.map (fun p =>
    p.lastWaypointTime * controllerParam scalingOverrides globalScaling p.controller
      + controllerParam marginOverrides globalMargin p.controller)

/-- Modelled from the spec: the cancellation deadline of `executePart`
(translation unit not in the sources). With monitoring enabled the deadline is
the dispatch start time plus the maximum allowed duration over the context's
parts (starting the maximum from zero, as the source accumulates into a zero
duration); with monitoring disabled there is no deadline (`none` stands for
an infinite deadline). -/
def computeDeadline (monitoring : Bool) (startTime : ℚ)
    (scalingOverrides marginOverrides : List (String × ℚ))
    (globalScaling globalMargin : ℚ) (parts : List TrajectoryPart) : Option ℚ :=
  if monitoring then
    some (startTime +
      (expectedDurations scalingOverrides marginOverrides globalScaling
        globalMargin parts).foldr max 0)
  else none

/-- Has the deadline passed at time `now`? An absent (infinite) deadline never
passes, so no timeout cancellation occurs. -/
def deadlineExceeded (deadline : Option ℚ) (now : ℚ) : Bool :=
  match deadline with
  | some t => decide (t < now)
  | none => false

/-- Embeds the `KinematicModel::JointModel` interface as used by
`KinematicState::JointState` in the `kinematic_state` translation unit:
the variable count, the variable index map (`getVariableIndexMap()`, a
`std::map` from variable name to storage index, modelled as an ascending-key
association list), the transform update (`updateTransform`, abstracted as a
function from the stored values to a transform of type `τ`), and the mimic
factor and offset. Values are modelled by rationals. -/
structure JointModel (τ : Type) where
  variableCount : Nat
  variableIndexMap : List (String × Nat)
  updateTransformFn : List ℚ → τ
  mimicFactor : ℚ
  mimicOffset : ℚ

/-- Embeds `KinematicState::JointState`: the joint model, the stored
`joint_state_values_`, and `variable_transform_`. The `mimicSent` field records
the values last forwarded to the mimic joints by `updateMimicJoints` (the
mimic joints themselves live in other `JointState` objects and only receive
these values). -/
structure JointState (τ : Type) where
  jointModel : JointModel τ
  jointStateValues : List ℚ
  variableTransform : τ
  mimicSent : List ℚ

/-- Embeds `JointState::updateMimicJoints`: for each mimic request, forward
`joint_state_values_[j] * getMimicFactor() + getMimicOffset()`; the forwarded
vector (identical for every request) is recorded in `mimicSent`. -/
def updateMimicJoints {τ : Type} (s : JointState τ) : JointState τ :=
  { s with mimicSent := s.jointStateValues.map (fun v =>
      v * s.jointModel.mimicFactor + s.jointModel.mimicOffset) }

/-- Embeds `bool JointState::setVariableValues(const std::vector<double>&)`:
fail (returning `false` and leaving the state untouched) when the input size
differs from the variable count; otherwise store the input, update the
transform from it, update the mimic joints and return `true`. -/
def setVariableValuesVec {τ : Type} (s : JointState τ) (vals : List ℚ) :
    Bool × JointState τ :=
  if vals.length ≠ s.jointModel.variableCount then (false, s)
  else (true, updateMimicJoints { s with
    jointStateValues := vals,
    variableTransform := s.jointModel.updateTransformFn vals })

/-- Embeds the loop of
`JointState::setVariableValues(const std::map<std::string,double>&, std::vector<std::string>&)`:
walk the variable index map in ascending key order; record a missing name when
the value map has no entry for it, otherwise write the value at the mapped
index and remember that something was found (`has_any`). Returns the final
values, the missing names in iteration order, and the `has_any` flag. -/
def applyFromIndexMap (m : List (String × ℚ)) :
    List (String × Nat) → List ℚ → List ℚ × List String × Bool
  | [], vs => (vs, [], false)
  | p :: vim, vs =>
    match lookupMap m p.1 with
    | none =>
      let r := applyFromIndexMap m vim vs
      (r.1, p.1 :: r.2.1, r.2.2)
    | some v =>
      let r := applyFromIndexMap m vim (vs.set p.2 v)
      (r.1, r.2.1, true)

/-- Embeds
`void JointState::setVariableValues(const std::map<std::string,double>&, std::vector<std::string>&)`:
apply the value map through the variable index map, collect the missing
variable names, and update the transform and the mimic joints only when at
least one variable was found (`has_any`). -/
def setVariableValuesMapWithMissing {τ : Type} (s : JointState τ)
    (m : List (String × ℚ)) : JointState τ × List String :=
  let r := applyFromIndexMap m s.jointModel.variableIndexMap s.jointStateValues
  if r.2.2 then
    (updateMimicJoints { s with
      jointStateValues := r.1,
      variableTransform := s.jointModel.updateTransformFn r.1 }, r.2.1)
  else ({ s with jointStateValues := r.1 }, r.2.1)

/-- Embeds the first branch of
`void JointState::setVariableValues(const std::map<std::string,double>&)`
(taken when the value map is the shorter one): walk the value map in ascending
key order and write each entry whose name the variable index map knows,
remembering whether anything was written (`update`). -/
def applyFromValueMap (vim : List (String × Nat)) :
    List (String × ℚ) → List ℚ → List ℚ × Bool
  | [], vs => (vs, false)
  | q :: m, vs =>
    match lookupMap vim q.1 with
    | none => applyFromValueMap vim m vs
    | some i =>
      let r := applyFromValueMap vim m (vs.set i q.2)
      (r.1, true)

/-- Embeds the second branch of
`void JointState::setVariableValues(const std::map<std::string,double>&)`
(taken when the variable index map is the shorter one): walk the variable index
map in ascending key order and write each entry the value map has a value for,
remembering whether anything was written (`update`). -/
def applyFromIndexMapNoMissing (m : List (String × ℚ)) :
    List (String × Nat) → List ℚ → List ℚ × Bool
  | [], vs => (vs, false)
  | p :: vim, vs =>
    match lookupMap m p.1 with
    | none => applyFromIndexMapNoMissing m vim vs
    | some v =>
      let r := applyFromIndexMapNoMissing m vim (vs.set p.2 v)
      (r.1, true)

/-- Embeds `void JointState::setVariableValues(const std::map<std::string,double>&)`:
iterate over the shorter of the two maps, write the values present in both,
and update the transform and the mimic joints only when something was written. -/
def setVariableValuesMap {τ : Type} (s : JointState τ) (m : List (String × ℚ)) :
    JointState τ :=
  let r :=
    if m.length ≤ s.jointModel.variableIndexMap.length then
      applyFromValueMap s.jointModel.variableIndexMap m s.jointStateValues
    else
      applyFromIndexMapNoMissing m s.jointModel.variableIndexMap s.jointStateValues
  if r.2 then
    updateMimicJoints { s with
      jointStateValues := r.1,
      variableTransform := s.jointModel.updateTransformFn r.1 }
  else { s with jointStateValues := r.1 }

/-- The ordered intersection of an index map and a value map: the
(index, value) write sequence both `setVariableValues` map overloads perform. -/
def mapWrites (vim : List (String × Nat)) (m : List (String × ℚ)) :
    List (Nat × ℚ) :=
  vim.filterMap (fun p => (lookupMap m p.1).map (fun v => (p.2, v)))

/-- The same write sequence enumerated from the value-map side. -/
def mapWritesFromValues (m : List (String × ℚ)) (vim : List (String × Nat)) :
    List (Nat × ℚ) :=
  m.filterMap (fun q => (lookupMap vim q.1).map (fun i => (i, q.2)))

/-- Applying a write sequence to a value vector. -/
def applyWrites (vs : List ℚ) (ws : List (Nat × ℚ)) : List ℚ :=
  ws.foldl (fun a q => a.set q.1 q.2) vs

/-- Fixture: a controller record on the single joint `j2`, used by witnesses. -/
def ciA : ControllerInformation := ⟨"A", {"j2"}, {"B"}, true, false, 0⟩

/-- Fixture: a controller record on joints `j2`, `j3`, used by witnesses. -/
def ciB : ControllerInformation := ⟨"B", {"j2", "j3"}, {"A"}, false, false, 0⟩

/-- Fixture: a two-controller registry with an overlap on `j2`. -/
def fixtureRegistry : List ControllerInformation := [ciA, ciB]

/-- Fixture: a single controller on the single joint `j`. -/
def ciSolo : ControllerInformation := ⟨"A", {"j"}, ∅, true, false, 0⟩

/-- Fixture: a one-controller registry. -/
def soloRegistry : List ControllerInformation := [ciSolo]

/-- Fixture: a joint model with one variable whose transform is the value
vector itself, used by witnesses. -/
def fixtureJointModel : JointModel (List ℚ) :=
  ⟨1, [("a", 0)], fun vs => vs, 1, 0⟩

/-- Fixture: a joint state over `fixtureJointModel`. -/
def fixtureJointState : JointState (List ℚ) :=
  ⟨fixtureJointModel, [0], [0], []⟩

/-- Fixture: a façade state with the sequential executor idle and the
continuous executor active. -/
def fixtureManagerState : ManagerState :=
  ⟨true, true, [1], ExecutionStatus.succeeded⟩

theorem ControllerInformation.lt_iff (a b : ControllerInformation) :
    ControllerInformation.lt a b = true ↔
      (a.joints.card < b.joints.card ∨
        (a.joints.card = b.joints.card ∧ a.name < b.name)) := by
  unfold ControllerInformation.lt
  by_cases h : a.joints.card = b.joints.card
  · simp [h]
  · have hne : ¬ a.joints.card = b.joints.card := h
    simp [hne]

theorem ControllerInformation.le_of_lt {a b : ControllerInformation}
    (h : ControllerInformation.lt a b = true) : ControllerInformation.le a b := by
  rcases (ControllerInformation.lt_iff a b).mp h with h1 | ⟨h1, h2⟩
  · exact Or.inl h1
  · exact Or.inr ⟨h1, h2.le⟩

theorem ControllerInformation.le_of_not_lt {a b : ControllerInformation}
    (h : ControllerInformation.lt a b = false) : ControllerInformation.le b a := by
  have h' : ¬ ControllerInformation.lt a b = true := by simp [h]
  rw [ControllerInformation.lt_iff] at h'
  push_neg at h'
  by_cases hc : a.joints.card = b.joints.card
  · exact Or.inr ⟨hc.symm, h'.2 hc⟩
  · have := h'.1
    exact Or.inl (by omega)

theorem ControllerInformation.le_trans {a b c : ControllerInformation}
    (hab : ControllerInformation.le a b) (hbc : ControllerInformation.le b c) :
    ControllerInformation.le a c := by
  rcases hab with h1 | ⟨h1, h2⟩ <;> rcases hbc with h3 | ⟨h3, h4⟩
  · exact Or.inl (by omega)
  · exact Or.inl (by omega)
  · exact Or.inl (by omega)
  · exact Or.inr ⟨h1.trans h3, h2.trans h4⟩

theorem lookupCI_name {registry : List ControllerInformation} {n : String}
    {ci : ControllerInformation} (h : lookupCI registry n = some ci) :
    ci.name = n := by
  have := List.find?_some h
  simpa using this

theorem minBy_eq_none {α : Type} (lt : α → α → Bool) :
    ∀ l : List α, minBy lt l = none ↔ l = [] := by
  intro l
  cases l with
  | nil => simp [minBy]
  | cons x xs =>
    simp only [minBy]
    cases h : minBy lt xs with
    | none => simp
    | some m =>
      by_cases hlt : lt m x <;> simp [hlt]

theorem minBy_mem {α : Type} (lt : α → α → Bool) :
    ∀ (l : List α) (m : α), minBy lt l = some m → m ∈ l := by
  intro l
  induction l with
  | nil => intro m h; simp [minBy] at h
  | cons x xs ih =>
    intro m h
    simp only [minBy] at h
    cases hxs : minBy lt xs with
    | none =>
      rw [hxs] at h
      simp at h
      simp [h]
    | some m' =>
      rw [hxs] at h
      by_cases hlt : lt m' x
      · simp [hlt] at h
        exact List.mem_cons_of_mem x (h ▸ ih m' hxs)
      · simp [hlt] at h
        simp [h]

theorem minBy_min {α : Type} (lt : α → α → Bool) (le : α → α → Prop)
    (h1 : ∀ a b, lt a b = true → le a b)
    (h2 : ∀ a b, lt a b = false → le b a) :
    (∀ a b c, le a b → le b c → le a c) →
    ∀ (l : List α) (m : α), minBy lt l = some m → ∀ a ∈ l, le m a := by
  intro htrans l
  have hrefl : ∀ a, le a a := by
    intro a
    cases hlt : lt a a with
    | true => exact h1 a a hlt
    | false => exact h2 a a hlt
  induction l with
  | nil => intro m h; simp [minBy] at h
  | cons x xs ih =>
    intro m h a ha
    simp only [minBy] at h
    cases hxs : minBy lt xs with
    | none =>
      rw [hxs] at h
      simp at h
      have hnil : xs = [] := (minBy_eq_none lt xs).mp hxs
      subst hnil
      simp at ha
      subst ha
      subst h
      exact hrefl a
    | some m' =>
      rw [hxs] at h
      by_cases hlt : lt m' x
      · simp [hlt] at h
        rcases List.mem_cons.mp ha with rfl | hmem
        · exact h ▸ h1 m' a hlt
        · exact h ▸ ih m' hxs a hmem
      · simp [hlt] at h
        rcases List.mem_cons.mp ha with rfl | hmem
        · rw [← h]
          exact hrefl a
        · have hflt : lt m' x = false := by simpa using hlt
          exact htrans m m' a (h ▸ h2 m' x hflt) (ih m' hxs a hmem)

/-- Claim C4: the ordering on `ControllerInformation` (`operator<`) is exactly:
by size of the joints set ascending, then by controller name ascending; for any
two values `a` and `b`, `a < b` iff `|a.joints| < |b.joints|`, or
`|a.joints| = |b.joints|` and `a.name < b.name`. -/
theorem controllerInformation_lt_characterisation (a b : ControllerInformation) :
    ControllerInformation.lt a b = true ↔
      (a.joints.card < b.joints.card ∨
        (a.joints.card = b.joints.card ∧ a.name < b.name)) := by
  unfold ControllerInformation.lt
  by_cases h : a.joints.card = b.joints.card
  · simp [h]
  · have hne : ¬ a.joints.card = b.joints.card := h
    simp [hne]

theorem mem_jointCandidates {registry : List ControllerInformation}
    {controllers : List String} {j : String} {ci : ControllerInformation} :
    ci ∈ jointCandidates registry controllers j ↔
      ((∃ c ∈ controllers, lookupCI registry c = some ci) ∧ j ∈ ci.joints) := by
  simp [jointCandidates, List.mem_filter, List.mem_filterMap]

theorem bestControllerInfo_spec {registry : List ControllerInformation}
    {controllers : List String} {j : String} {ci : ControllerInformation}
    (h : bestControllerInfo registry controllers j = some ci) :
    ci.name ∈ controllers ∧ lookupCI registry ci.name = some ci ∧
      j ∈ ci.joints ∧
      ∀ ci2 ∈ jointCandidates registry controllers j,
        ControllerInformation.le ci ci2 := by
  have hmem := minBy_mem ControllerInformation.lt _ ci h
  have hmin := minBy_min ControllerInformation.lt ControllerInformation.le
    (fun _ _ hab => ControllerInformation.le_of_lt hab)
    (fun _ _ hab => ControllerInformation.le_of_not_lt hab)
    (fun _ _ _ hab hbc => ControllerInformation.le_trans hab hbc)
    _ ci h
  rw [mem_jointCandidates] at hmem
  obtain ⟨⟨c, hc, hlook⟩, hj⟩ := hmem
  have hname := lookupCI_name hlook
  exact ⟨hname ▸ hc, hname ▸ hlook, hj, hmin⟩

theorem bestController_mem {registry : List ControllerInformation}
    {controllers : List String} {j c : String}
    (h : bestController registry controllers j = some c) : c ∈ controllers := by
  unfold bestController at h
  cases hinfo : bestControllerInfo registry controllers j with
  | none => rw [hinfo] at h; simp at h
  | some ci =>
    rw [hinfo] at h
    simp at h
    exact h ▸ (bestControllerInfo_spec hinfo).1

theorem mem_partForController {registry : List ControllerInformation}
    {trajJoints controllers : List String} {c j : String} :
    j ∈ partForController registry trajJoints controllers c ↔
      j ∈ trajJoints ∧ bestController registry controllers j = some c := by
  simp [partForController, List.mem_filter]

theorem distributeTrajectory_eq_some {registry : List ControllerInformation}
    {trajJoints controllers : List String} {parts : List (List String)}
    (h : distributeTrajectory registry trajJoints controllers = some parts) :
    parts = controllers.map (partForController registry trajJoints controllers) ∧
      ∀ j ∈ trajJoints, (bestController registry controllers j).isSome := by
  unfold distributeTrajectory at h
  by_cases hall : trajJoints.all (fun j => (bestController registry controllers j).isSome)
  · rw [if_pos hall] at h
    refine ⟨(Option.some.inj h).symm, ?_⟩
    simpa [List.all_eq_true] using hall
  · rw [if_neg hall] at h
    simp at h

theorem countP_congr_mem {α : Type} (l : List α) (p q : α → Bool)
    (h : ∀ a ∈ l, p a = q a) : l.countP p = l.countP q := by
  induction l with
  | nil => simp
  | cons x t ih =>
    rw [List.countP_cons, List.countP_cons, h x (List.mem_cons_self x t),
      ih (fun a ha => h a (List.mem_cons_of_mem x ha))]

theorem countP_eq_one_unique {l : List String} {a : String}
    (h : l.Nodup) (ha : a ∈ l) :
    l.countP (fun c => decide (a = c)) = 1 := by
  induction l with
  | nil => simp at ha
  | cons b t ih =>
    rw [List.countP_cons]
    rcases List.mem_cons.mp ha with rfl | hmem
    · have hnot : a ∉ t := (List.nodup_cons.mp h).1
      have hz : t.countP (fun c => decide (a = c)) = 0 := by
        rw [List.countP_eq_zero]
        intro x hx
        simp only [decide_eq_true_eq]
        intro hax
        exact hnot (hax ▸ hx)
      simp [hz]
    · have hab : ¬ (a = b) := by
        rintro rfl
        exact (List.nodup_cons.mp h).1 hmem
      have := ih (List.nodup_cons.mp h).2 hmem
      simp [this, hab]

theorem distribute_countP_one {registry : List ControllerInformation}
    {trajJoints controllers : List String} {parts : List (List String)} {j : String}
    (hnd : controllers.Nodup)
    (h : distributeTrajectory registry trajJoints controllers = some parts)
    (hj : j ∈ trajJoints) :
    parts.countP (fun p => decide (j ∈ p)) = 1 := by
  obtain ⟨hparts, hall⟩ := distributeTrajectory_eq_some h
  obtain ⟨c0, hc0⟩ := Option.isSome_iff_exists.mp (hall j hj)
  rw [hparts, List.countP_map]
  have hcong : ∀ c ∈ controllers,
      ((fun p => decide (j ∈ p)) ∘ partForController registry trajJoints controllers) c
        = decide (c0 = c) := by
    intro c _
    simp only [Function.comp]
    rw [decide_eq_decide]
    rw [mem_partForController]
    constructor
    · rintro ⟨_, hbc⟩
      rw [hc0] at hbc
      exact Option.some.inj hbc
    · rintro rfl
      exact ⟨hj, hc0⟩
  rw [countP_congr_mem controllers _ _ hcong]
  exact countP_eq_one_unique hnd (bestController_mem hc0)

theorem distribute_union {registry : List ControllerInformation}
    {trajJoints controllers : List String} {parts : List (List String)}
    (h : distributeTrajectory registry trajJoints controllers = some parts) :
    ∀ j, (∃ p ∈ parts, j ∈ p) ↔ j ∈ trajJoints := by
  obtain ⟨hparts, hall⟩ := distributeTrajectory_eq_some h
  intro j
  constructor
  · rintro ⟨p, hp, hjp⟩
    rw [hparts, List.mem_map] at hp
    obtain ⟨c, _, rfl⟩ := hp
    exact (mem_partForController.mp hjp).1
  · intro hj
    obtain ⟨c0, hc0⟩ := Option.isSome_iff_exists.mp (hall j hj)
    refine ⟨partForController registry trajJoints controllers c0, ?_, ?_⟩
    · rw [hparts]
      exact List.mem_map_of_mem _ (bestController_mem hc0)
    · exact mem_partForController.mpr ⟨hj, hc0⟩

theorem lt_le_asymm_ci {a b : ControllerInformation}
    (h1 : ControllerInformation.lt a b = true)
    (h2 : ControllerInformation.le b a) : False := by
  rcases (ControllerInformation.lt_iff a b).mp h1 with hc | ⟨hc, hn⟩
  · rcases h2 with hc' | ⟨hc', _⟩
    · omega
    · omega
  · rcases h2 with hc' | ⟨_, hn'⟩
    · omega
    · exact absurd hn' (not_le.mpr hn)

/-- Claim C3: when two selected controllers both list a joint, the distributor
assigns the joint only to the one that is smaller under the joint-set-size
order with ties broken by name (`infoA < infoB` means `cA` wins): the joint is
not placed in `cB`'s part, and it occurs in exactly one part overall. -/
theorem distributeTrajectory_overlap_resolution
    (registry : List ControllerInformation)
    (trajJoints controllers : List String) (parts : List (List String))
    (j cA cB : String) (infoA infoB : ControllerInformation)
    (hnd : controllers.Nodup)
    (h : distributeTrajectory registry trajJoints controllers = some parts)
    (hj : j ∈ trajJoints)
    (hlA : lookupCI registry cA = some infoA)
    (hlB : lookupCI registry cB = some infoB)
    (hjA : j ∈ infoA.joints) (hjB : j ∈ infoB.joints)
    (hA : cA ∈ controllers) (hB : cB ∈ controllers)
    (hlt : ControllerInformation.lt infoA infoB = true) :
    partForController registry trajJoints controllers cB ∈ parts ∧
      j ∉ partForController registry trajJoints controllers cB ∧
      parts.countP (fun p => decide (j ∈ p)) = 1 := by
  obtain ⟨hparts, _⟩ := distributeTrajectory_eq_some h
  refine ⟨?_, ?_, distribute_countP_one hnd h hj⟩
  · rw [hparts]
    exact List.mem_map_of_mem _ hB
  · intro hmem
    obtain ⟨_, hbest⟩ := mem_partForController.mp hmem
    unfold bestController at hbest
    cases hinfo : bestControllerInfo registry controllers j with
    | none => rw [hinfo] at hbest; simp at hbest
    | some ci =>
      rw [hinfo] at hbest
      simp at hbest
      obtain ⟨hmemc, hlook, hjc, hmin⟩ := bestControllerInfo_spec hinfo
      rw [hbest] at hlook
      have hci : ci = infoB := Option.some.inj (hlook.symm.trans hlB)
      have hcand : infoA ∈ jointCandidates registry controllers j :=
        mem_jointCandidates.mpr ⟨⟨cA, hA, hlA⟩, hjA⟩
      have hle := hmin infoA hcand
      rw [hci] at hle
      exact lt_le_asymm_ci hlt hle

/-- Witness for claim C3 at a concrete overlapping configuration: controllers
`A` on joint `j2` and `B` on `j2`, `j3`; the shared joint `j2` goes to `A`
(the smaller joint set) and is absent from `B`'s part. -/
theorem distributeTrajectory_overlap_resolution_witness :
    distributeTrajectory fixtureRegistry ["j2", "j3"] ["A", "B"] =
        some [["j2"], ["j3"]] ∧
      ControllerInformation.lt ciA ciB = true ∧
      ("j2" ∉ partForController fixtureRegistry ["j2", "j3"] ["A", "B"] "B") ∧
      ([["j2"], ["j3"]] : List (List String)).countP
        (fun p => decide ("j2" ∈ p)) = 1 := by
  have hmain := distributeTrajectory_overlap_resolution fixtureRegistry
    ["j2", "j3"] ["A", "B"] [["j2"], ["j3"]] "j2" "A" "B" ciA ciB
    (by decide) (by decide) (by decide) (by decide) (by decide)
    (by decide) (by decide) (by decide) (by decide) (by decide)
  exact ⟨by decide, by decide, hmain.2.1, hmain.2.2⟩

theorem findControllers_some {registry : List ControllerInformation}
    {actuated : List String} {k : Nat} {available sel : List String}
    (h : findControllers registry actuated k available = some sel) :
    sel.Sublist available ∧ sel.length = k ∧
      coversB registry sel actuated = true := by
  have hmem := minBy_mem (comboBetter registry) _ sel h
  rw [List.mem_filter] at hmem
  obtain ⟨hmem, hcov⟩ := hmem
  rw [List.mem_sublistsLen] at hmem
  exact ⟨hmem.1, hmem.2, hcov⟩

theorem findControllers_none {registry : List ControllerInformation}
    {actuated : List String} {k : Nat} {available : List String}
    (h : findControllers registry actuated k available = none) :
    ∀ cs, cs.Sublist available → cs.length = k →
      coversB registry cs actuated = false := by
  intro cs hsub hlen
  unfold findControllers at h
  have hnil := (minBy_eq_none _ _).mp h
  have hmem : cs ∈ List.sublistsLen k available :=
    List.mem_sublistsLen.mpr ⟨hsub, hlen⟩
  have := List.filter_eq_nil_iff.mp hnil cs hmem
  simpa using this

theorem selectUpTo_none {registry : List ControllerInformation}
    {actuated available : List String} :
    ∀ n, selectUpTo registry actuated available n = none →
      ∀ k, 1 ≤ k → k ≤ n →
        findControllers registry actuated k available = none := by
  intro n
  induction n with
  | zero => intro _ k h1 h2; omega
  | succ n ih =>
    intro h k h1 h2
    simp only [selectUpTo] at h
    cases hsel : selectUpTo registry actuated available n with
    | some sel => rw [hsel] at h; simp at h
    | none =>
      rw [hsel] at h
      by_cases hk : k = n + 1
      · exact hk ▸ h
      · exact ih hsel k h1 (by omega)

theorem selectUpTo_some {registry : List ControllerInformation}
    {actuated available : List String} :
    ∀ n sel, selectUpTo registry actuated available n = some sel →
      ∃ k, 1 ≤ k ∧ k ≤ n ∧
        findControllers registry actuated k available = some sel ∧
        ∀ k2, 1 ≤ k2 → k2 < k →
          findControllers registry actuated k2 available = none := by
  intro n
  induction n with
  | zero => intro sel h; simp [selectUpTo] at h
  | succ n ih =>
    intro sel h
    simp only [selectUpTo] at h
    cases hsel : selectUpTo registry actuated available n with
    | some s =>
      rw [hsel] at h
      obtain ⟨k, h1, h2, h3, h4⟩ := ih s hsel
      have hs : s = sel := Option.some.inj h
      exact ⟨k, h1, by omega, hs ▸ h3, h4⟩
    | none =>
      rw [hsel] at h
      refine ⟨n + 1, by omega, le_refl _, h, ?_⟩
      intro k2 hk1 hk2
      exact selectUpTo_none n hsel k2 hk1 (by omega)

theorem selectControllers_some_spec {registry : List ControllerInformation}
    {actuated available sel : List String}
    (h : selectControllers registry actuated available = some sel) :
    sel.Sublist available ∧ coversB registry sel actuated = true ∧
      ∀ k2, 1 ≤ k2 → k2 < sel.length →
        findControllers registry actuated k2 available = none := by
  unfold selectControllers at h
  obtain ⟨k, _, _, h3, h4⟩ := selectUpTo_some available.length sel h
  obtain ⟨hsub, hlen, hcov⟩ := findControllers_some h3
  exact ⟨hsub, hcov, hlen ▸ h4⟩

/-- Counterexample to claim C2 as stated: with an empty actuated-joint set the
selector still succeeds with a one-controller list, although the empty subset
of the available controllers — strictly smaller — also covers, so the returned
cover is not of minimum cardinality among all subsets. -/
theorem selectControllers_minimality_counterexample :
    ¬ (∀ sel, selectControllers soloRegistry [] ["A"] = some sel →
        ∀ cs, cs.Sublist ["A"] → cs.length < sel.length →
          coversB soloRegistry cs [] = false) := by
  intro hclaim
  have hfail := hclaim ["A"] (by decide) [] (List.nil_sublist _) (by decide)
  simp [coversB] at hfail

/-- Claim C2 (amended): for every nonempty set of actuated joints and every
list of available controllers, when `selectControllers` succeeds the returned
list of controllers covers all actuated joints and is of minimum cardinality —
no strictly smaller subset of the available controllers covers them. -/
theorem selectControllers_minimal_cover (registry : List ControllerInformation)
    (actuated available sel : List String)
    (hne : actuated ≠ [])
    (h : selectControllers registry actuated available = some sel) :
    coversB registry sel actuated = true ∧ sel.Sublist available ∧
      ∀ cs, cs.Sublist available → cs.length < sel.length →
        coversB registry cs actuated = false := by
  obtain ⟨hsub, hcov, hnone⟩ := selectControllers_some_spec h
  refine ⟨hcov, hsub, ?_⟩
  intro cs hcsub hcl
  rcases Nat.eq_zero_or_pos cs.length with h0 | hpos
  · have hcs : cs = [] := List.length_eq_zero.mp h0
    subst hcs
    obtain ⟨j, t, rfl⟩ := List.exists_cons_of_ne_nil hne
    simp [coversB]
  · exact findControllers_none (hnone cs.length hpos hcl) cs hcsub rfl

/-- Witness for the amended claim C2: one controller on one joint is selected
and is a minimum cover for that joint. -/
theorem selectControllers_minimal_cover_witness :
    (["j"] : List String) ≠ [] ∧
      selectControllers soloRegistry ["j"] ["A"] = some ["A"] ∧
      coversB soloRegistry ["A"] ["j"] = true :=
  ⟨by decide, by decide,
    (selectControllers_minimal_cover soloRegistry ["j"] ["A"] ["A"]
      (by decide) (by decide)).1⟩

theorem configure_eq_some {registry : List ControllerInformation}
    {trajJoints available : List String} {ctx : TrajectoryExecutionContext}
    (h : configure registry trajJoints available = some ctx) :
    trajJoints ≠ [] ∧
      selectControllers registry trajJoints available = some ctx.controllers ∧
      distributeTrajectory registry trajJoints ctx.controllers =
        some ctx.trajectoryParts := by
  unfold configure at h
  by_cases hnil : trajJoints = []
  · simp [hnil] at h
  · rw [if_neg hnil] at h
    cases hsel : selectControllers registry trajJoints available with
    | none => rw [hsel] at h; simp at h
    | some sel =>
      rw [hsel] at h
      cases hdist : distributeTrajectory registry trajJoints sel with
      | none => simp [hdist] at h
      | some parts =>
        simp [hdist] at h
        subst h
        exact ⟨hnil, rfl, hdist⟩

/-- Claim C1: for every trajectory successfully configured into a context
(selection plus distribution over a duplicate-free list of available
controllers), every joint named in the original trajectory appears in exactly
one part, the union of joint names across the parts equals the actuated joints
of the original request, and the parts run parallel to the controllers. -/
theorem configure_parts_partition (registry : List ControllerInformation)
    (trajJoints available : List String) (ctx : TrajectoryExecutionContext)
    (hav : available.Nodup)
    (h : configure registry trajJoints available = some ctx) :
    (∀ j ∈ trajJoints,
        ctx.trajectoryParts.countP (fun p => decide (j ∈ p)) = 1) ∧
      (∀ j, (∃ p ∈ ctx.trajectoryParts, j ∈ p) ↔ j ∈ trajJoints) ∧
      ctx.controllers.length = ctx.trajectoryParts.length := by
  obtain ⟨_, hsel, hdist⟩ := configure_eq_some h
  have hsub := (selectControllers_some_spec hsel).1
  have hnd : ctx.controllers.Nodup := hsub.nodup hav
  refine ⟨?_, distribute_union hdist, ?_⟩
  · intro j hj
    exact distribute_countP_one hnd hdist hj
  · obtain ⟨hparts, _⟩ := distributeTrajectory_eq_some hdist
    rw [hparts, List.length_map]

/-- Witness for claim C1: configuring a two-joint trajectory over the fixture
registry selects controller `B` alone and yields a single part containing
both joints exactly once. -/
theorem configure_parts_partition_witness :
    (["A", "B"] : List String).Nodup ∧
      configure fixtureRegistry ["j2", "j3"] ["A", "B"] =
        some ⟨["B"], [["j2", "j3"]]⟩ ∧
      ([["j2", "j3"]] : List (List String)).countP
        (fun p => decide ("j2" ∈ p)) = 1 :=
  ⟨by decide, by decide,
    (configure_parts_partition fixtureRegistry ["j2", "j3"] ["A", "B"]
      ⟨["B"], [["j2", "j3"]]⟩ (by decide) (by decide)).1 ("j2") (by decide)⟩

/-- Claim C5: with `manage_controllers` false, `ensureActiveControllers`
returns true iff every requested controller is already active, and it issues
no activation switch to the collaborator. -/
theorem ensureActiveControllers_unmanaged
    (registry : List ControllerInformation) (switchOk : SwitchCommand → Bool)
    (names : List String) :
    ((ensureActiveControllers false registry switchOk names).1 = true ↔
        ∀ c ∈ names, isActiveB registry c = true) ∧
      (ensureActiveControllers false registry switchOk names).2 = none := by
  unfold ensureActiveControllers
  simp [List.all_eq_true]

/-- Witness for claim C5: with one active controller requested the unmanaged
check succeeds without a switch; with an unknown controller requested it
fails, still without a switch. -/
theorem ensureActiveControllers_unmanaged_witness :
    (ensureActiveControllers false soloRegistry (fun _ => true) ["A"]).1 = true ∧
      (ensureActiveControllers false soloRegistry (fun _ => true) ["A"]).2 = none ∧
      (ensureActiveControllers false soloRegistry (fun _ => true) ["C"]).1 = false := by
  refine ⟨?_, ?_, ?_⟩
  · exact (ensureActiveControllers_unmanaged soloRegistry (fun _ => true)
      ["A"]).1.mpr (by decide)
  · exact (ensureActiveControllers_unmanaged soloRegistry (fun _ => true) ["A"]).2
  · have hiff := (ensureActiveControllers_unmanaged soloRegistry (fun _ => true)
      ["C"]).1
    cases hval : (ensureActiveControllers false soloRegistry (fun _ => true) ["C"]).1 with
    | false => rfl
    | true =>
      have := hiff.mp hval ("C") (by decide)
      rw [show isActiveB soloRegistry ("C") = false from by decide] at this
      cases this

/-- Claim C6: with `allowed_start_tolerance` equal to `0`, the start-state
validator returns success unconditionally — for every distance function,
every current robot state, and every set of first waypoints. -/
theorem validate_zero_tolerance_disables
    (jointDistance : String → ℚ → ℚ → ℚ) (current : String → ℚ)
    (firstWaypoints : List (List (String × ℚ))) :
    validate 0 jointDistance current firstWaypoints = true := by
  unfold validate
  simp

/-- Claim C7: `waitForExecution` stops the continuous (pushAndExecute)
executor immediately — its active flag is lowered and its queue cleared in the
resulting state — and it returns a value only once the sequential executor is
idle, namely the last execution status; while the sequential executor is busy
it keeps blocking (no value yet). -/
theorem waitForExecution_spec (s : ManagerState) :
    (waitForExecution s).2.continuousActive = false ∧
      (waitForExecution s).2.continuousQueue = [] ∧
      (s.executionComplete = true →
        (waitForExecution s).1 = some s.lastExecutionStatus) ∧
      (s.executionComplete = false → (waitForExecution s).1 = none) := by
  unfold waitForExecution stopContinuousExecution
  refine ⟨?_, ?_, ?_, ?_⟩
  · by_cases h : s.executionComplete <;> simp [h]
  · by_cases h : s.executionComplete <;> simp [h]
  · intro h; simp [h]
  · intro h; simp [h]

/-- Witness for claim C7 at a concrete state: sequential executor idle,
continuous executor active with a queued context. -/
theorem waitForExecution_spec_witness :
    (waitForExecution fixtureManagerState).2.continuousActive = false ∧
      (waitForExecution fixtureManagerState).2.continuousQueue = [] ∧
      (waitForExecution fixtureManagerState).1 = some ExecutionStatus.succeeded := by
  have hmain := waitForExecution_spec fixtureManagerState
  exact ⟨hmain.1, hmain.2.1, hmain.2.2.1 (by decide)⟩

theorem foldr_max_ge (l : List ℚ) : ∀ d ∈ l, d ≤ l.foldr max 0 := by
  induction l with
  | nil => intro d hd; simp at hd
  | cons x t ih =>
    intro d hd
    rcases List.mem_cons.mp hd with rfl | hmem
    · exact le_max_left _ _
    · exact le_trans (ih d hmem) (le_max_right _ _)

theorem foldr_max_mem (l : List ℚ) : l.foldr max 0 = 0 ∨ l.foldr max 0 ∈ l := by
  induction l with
  | nil => exact Or.inl rfl
  | cons x t ih =>
    rcases max_choice x (t.foldr max 0) with hx | ht
    · exact Or.inr (by rw [List.foldr_cons, hx]; exact List.mem_cons_self x t)
    · rw [List.foldr_cons, ht]
      rcases ih with h0 | hmem
      · exact Or.inl h0
      · exact Or.inr (List.mem_cons_of_mem x hmem)

/-- Claim C8: with execution duration monitoring enabled, the cancellation
deadline equals the dispatch start time plus the maximum over the context's
parts of (last waypoint time × controller-specific-or-global scaling +
controller-specific-or-global margin) — an upper bound on every part's allowed
duration, attained by some part unless it is the zero the accumulation starts
from; with monitoring disabled the deadline is absent (infinite) and timeout
cancellation never occurs. -/
theorem computeDeadline_spec (startTime : ℚ)
    (scalingOverrides marginOverrides : List (String × ℚ))
    (globalScaling globalMargin : ℚ) (parts : List TrajectoryPart) :
    (∃ m, computeDeadline true startTime scalingOverrides marginOverrides
          globalScaling globalMargin parts = some (startTime + m) ∧
        (∀ p ∈ parts,
          p.lastWaypointTime *
              controllerParam scalingOverrides globalScaling p.controller +
            controllerParam marginOverrides globalMargin p.controller ≤ m) ∧
        (m = 0 ∨ m ∈ expectedDurations scalingOverrides marginOverrides
            globalScaling globalMargin parts)) ∧
      computeDeadline false startTime scalingOverrides marginOverrides
          globalScaling globalMargin parts = none ∧
      ∀ now, deadlineExceeded (computeDeadline false startTime scalingOverrides
          marginOverrides globalScaling globalMargin parts) now = false := by
  refine ⟨⟨(expectedDurations scalingOverrides marginOverrides globalScaling
      globalMargin parts).foldr max 0, rfl, ?_, foldr_max_mem _⟩, rfl, ?_⟩
  · intro p hp
    exact foldr_max_ge _ _ (List.mem_map_of_mem _ hp)
  · intro _
    rfl

/-- Witness for claim C8 at a concrete context: one part of duration 3 under
scaling 2 and margin 1 gives deadline 0 + 7; without monitoring there is no
deadline and no timeout even far past the expected duration. -/
theorem computeDeadline_spec_witness :
    computeDeadline false 0 [] [] 2 1 [⟨"A", 3⟩] = none ∧
      deadlineExceeded (computeDeadline false 0 [] [] 2 1 [⟨"A", 3⟩]) 100 = false ∧
      computeDeadline true 0 [] [] 2 1 [⟨"A", 3⟩] = some 7 :=
  ⟨(computeDeadline_spec 0 [] [] 2 1 [⟨"A", 3⟩]).2.1,
    (computeDeadline_spec 0 [] [] 2 1 [⟨"A", 3⟩]).2.2 100,
    by
      simp [computeDeadline, expectedDurations, controllerParam, lookupMap]
      norm_num [max_def]⟩

/-- Claim C9: the vector overload of `setVariableValues` returns false iff the
input size differs from the joint's variable count, and in that failure case
the stored joint state values and the variable transform are left unchanged. -/
theorem setVariableValuesVec_size_check {τ : Type} (s : JointState τ)
    (vals : List ℚ) :
    ((setVariableValuesVec s vals).1 = false ↔
        vals.length ≠ s.jointModel.variableCount) ∧
      (vals.length ≠ s.jointModel.variableCount →
        (setVariableValuesVec s vals).2.jointStateValues = s.jointStateValues ∧
          (setVariableValuesVec s vals).2.variableTransform =
            s.variableTransform) := by
  unfold setVariableValuesVec
  by_cases h : vals.length = s.jointModel.variableCount
  · simp [h]
  · simp [h]

/-- Witness for claim C9: feeding an empty vector to a one-variable joint
state fails and leaves values and transform untouched. -/
theorem setVariableValuesVec_size_check_witness :
    (setVariableValuesVec fixtureJointState []).1 = false ∧
      (setVariableValuesVec fixtureJointState []).2.jointStateValues =
        fixtureJointState.jointStateValues ∧
      (setVariableValuesVec fixtureJointState []).2.variableTransform =
        fixtureJointState.variableTransform := by
  have hmain := setVariableValuesVec_size_check fixtureJointState []
  have hne : ([] : List ℚ).length ≠ fixtureJointState.jointModel.variableCount := by
    decide
  exact ⟨hmain.1.mpr hne, (hmain.2 hne).1, (hmain.2 hne).2⟩

theorem lookupMap_eq_none_of_forall_lt {β : Type} {key : String}
    {l : List (String × β)} (h : ∀ q ∈ l, key < q.1) :
    lookupMap l key = none := by
  induction l with
  | nil => rfl
  | cons p t ih =>
    have hne : key ≠ p.1 := ne_of_lt (h p (List.mem_cons_self p t))
    simp only [lookupMap, if_neg hne]
    exact ih (fun q hq => h q (List.mem_cons_of_mem p hq))

theorem applyFromIndexMap_char (m : List (String × ℚ)) :
    ∀ (vim : List (String × Nat)) (vs : List ℚ),
      (applyFromIndexMap m vim vs).1 = applyWrites vs (mapWrites vim m) ∧
        (applyFromIndexMap m vim vs).2.2 = ! (mapWrites vim m).isEmpty := by
  intro vim
  induction vim with
  | nil =>
    intro vs
    simp [applyFromIndexMap, mapWrites, applyWrites]
  | cons p t ih =>
    intro vs
    cases hl : lookupMap m p.1 with
    | none =>
      have hw : mapWrites (p :: t) m = mapWrites t m := by
        simp [mapWrites, hl]
      simp only [applyFromIndexMap, hl, hw]
      exact ⟨(ih vs).1, (ih vs).2⟩
    | some v =>
      have hw : mapWrites (p :: t) m = (p.2, v) :: mapWrites t m := by
        simp [mapWrites, hl]
      simp only [applyFromIndexMap, hl, hw, applyWrites, List.foldl_cons]
      exact ⟨(ih (vs.set p.2 v)).1, by simp⟩

theorem applyFromIndexMapNoMissing_char (m : List (String × ℚ)) :
    ∀ (vim : List (String × Nat)) (vs : List ℚ),
      applyFromIndexMapNoMissing m vim vs =
        (applyWrites vs (mapWrites vim m), ! (mapWrites vim m).isEmpty) := by
  intro vim
  induction vim with
  | nil =>
    intro vs
    simp [applyFromIndexMapNoMissing, mapWrites, applyWrites]
  | cons p t ih =>
    intro vs
    cases hl : lookupMap m p.1 with
    | none =>
      have hw : mapWrites (p :: t) m = mapWrites t m := by
        simp [mapWrites, hl]
      simp only [applyFromIndexMapNoMissing, hl, hw]
      exact ih vs
    | some v =>
      have hw : mapWrites (p :: t) m = (p.2, v) :: mapWrites t m := by
        simp [mapWrites, hl]
      simp only [applyFromIndexMapNoMissing, hl, hw, applyWrites, List.foldl_cons]
      rw [ih (vs.set p.2 v)]
      simp [applyWrites]

theorem applyFromValueMap_char (vim : List (String × Nat)) :
    ∀ (m : List (String × ℚ)) (vs : List ℚ),
      applyFromValueMap vim m vs =
        (applyWrites vs (mapWritesFromValues m vim),
          ! (mapWritesFromValues m vim).isEmpty) := by
  intro m
  induction m with
  | nil =>
    intro vs
    simp [applyFromValueMap, mapWritesFromValues, applyWrites]
  | cons q t ih =>
    intro vs
    cases hl : lookupMap vim q.1 with
    | none =>
      have hw : mapWritesFromValues (q :: t) vim = mapWritesFromValues t vim := by
        simp [mapWritesFromValues, hl]
      simp only [applyFromValueMap, hl, hw]
      exact ih vs
    | some i =>
      have hw : mapWritesFromValues (q :: t) vim =
          (i, q.2) :: mapWritesFromValues t vim := by
        simp [mapWritesFromValues, hl]
      simp only [applyFromValueMap, hl, hw, applyWrites, List.foldl_cons]
      rw [ih (vs.set i q.2)]
      simp [applyWrites]

theorem mapWrites_congr {vim : List (String × Nat)}
    {m1 m2 : List (String × ℚ)}
    (h : ∀ x ∈ vim, lookupMap m1 x.1 = lookupMap m2 x.1) :
    mapWrites vim m1 = mapWrites vim m2 := by
  unfold mapWrites
  exact List.filterMap_congr (fun x hx => by rw [h x hx])

theorem mapWritesFromValues_congr {m : List (String × ℚ)}
    {vim1 vim2 : List (String × Nat)}
    (h : ∀ q ∈ m, lookupMap vim1 q.1 = lookupMap vim2 q.1) :
    mapWritesFromValues m vim1 = mapWritesFromValues m vim2 := by
  unfold mapWritesFromValues
  exact List.filterMap_congr (fun q hq => by rw [h q hq])

theorem mapWrites_comm :
    ∀ (n : Nat) (vim : List (String × Nat)) (m : List (String × ℚ)),
      vim.length + m.length ≤ n →
      vim.Pairwise (fun p q => p.1 < q.1) →
      m.Pairwise (fun p q => p.1 < q.1) →
      mapWrites vim m = mapWritesFromValues m vim := by
  intro n
  induction n with
  | zero =>
    intro vim m hlen _ _
    have hv : vim = [] := List.length_eq_zero.mp (by omega)
    have hm : m = [] := List.length_eq_zero.mp (by omega)
    subst hv
    subst hm
    rfl
  | succ n ih =>
    intro vim m hlen hvim hm
    cases vim with
    | nil =>
      have h2 : mapWritesFromValues m [] = [] := by
        unfold mapWritesFromValues
        rw [List.filterMap_eq_nil_iff]
        intro q _
        rfl
      rw [h2]
      rfl
    | cons p t1 =>
      cases m with
      | nil =>
        have h1 : mapWrites (p :: t1) [] = [] := by
          unfold mapWrites
          rw [List.filterMap_eq_nil_iff]
          intro q _
          rfl
        rw [h1]
        rfl
      | cons q t2 =>
        obtain ⟨hpt1, hvim'⟩ := List.pairwise_cons.mp hvim
        obtain ⟨hqt2, hm'⟩ := List.pairwise_cons.mp hm
        rcases lt_trichotomy p.1 q.1 with hlt | heq | hgt
        · have hlp : lookupMap (q :: t2) p.1 = none := by
            apply lookupMap_eq_none_of_forall_lt
            intro x hx
            rcases List.mem_cons.mp hx with rfl | hx2
            · exact hlt
            · exact lt_trans hlt (hqt2 x hx2)
          have hL : mapWrites (p :: t1) (q :: t2) = mapWrites t1 (q :: t2) := by
            simp [mapWrites, hlp]
          have hR : mapWritesFromValues (q :: t2) (p :: t1) =
              mapWritesFromValues (q :: t2) t1 := by
            apply mapWritesFromValues_congr
            intro x hx
            have hxgt : p.1 < x.1 := by
              rcases List.mem_cons.mp hx with rfl | hx2
              · exact hlt
              · exact lt_trans hlt (hqt2 x hx2)
            simp only [lookupMap, if_neg (ne_of_gt hxgt)]
          rw [hL, hR]
          exact ih t1 (q :: t2) (by simp at hlen ⊢; omega) hvim' hm
        · have hLhead : lookupMap (q :: t2) p.1 = some q.2 := by
            simp only [lookupMap, if_pos heq]
          have hRhead : lookupMap (p :: t1) q.1 = some p.2 := by
            simp only [lookupMap, if_pos heq.symm]
          have hLtail : mapWrites t1 (q :: t2) = mapWrites t1 t2 := by
            apply mapWrites_congr
            intro x hx
            have hxgt : q.1 < x.1 := heq ▸ hpt1 x hx
            simp only [lookupMap, if_neg (ne_of_gt hxgt)]
          have hRtail : mapWritesFromValues t2 (p :: t1) =
              mapWritesFromValues t2 t1 := by
            apply mapWritesFromValues_congr
            intro x hx
            have hxgt : p.1 < x.1 := heq ▸ hqt2 x hx
            simp only [lookupMap, if_neg (ne_of_gt hxgt)]
          have hL : mapWrites (p :: t1) (q :: t2) =
              (p.2, q.2) :: mapWrites t1 (q :: t2) := by
            unfold mapWrites
            refine List.filterMap_cons_some ?_
            simp [hLhead]
          have hR : mapWritesFromValues (q :: t2) (p :: t1) =
              (p.2, q.2) :: mapWritesFromValues t2 (p :: t1) := by
            unfold mapWritesFromValues
            refine List.filterMap_cons_some ?_
            simp [hRhead]
          rw [hL, hLtail, hR, hRtail,
            ih t1 t2 (by simp at hlen ⊢; omega) hvim' hm']
        · have hrp : lookupMap (p :: t1) q.1 = none := by
            apply lookupMap_eq_none_of_forall_lt
            intro x hx
            rcases List.mem_cons.mp hx with rfl | hx2
            · exact hgt
            · exact lt_trans hgt (hpt1 x hx2)
          have hR : mapWritesFromValues (q :: t2) (p :: t1) =
              mapWritesFromValues t2 (p :: t1) := by
            simp [mapWritesFromValues, hrp]
          have hL : mapWrites (p :: t1) (q :: t2) = mapWrites (p :: t1) t2 := by
            apply mapWrites_congr
            intro x hx
            have hxgt : q.1 < x.1 := by
              rcases List.mem_cons.mp hx with rfl | hx2
              · exact hgt
              · exact lt_trans hgt (hpt1 x hx2)
            simp only [lookupMap, if_neg (ne_of_gt hxgt)]
          rw [hL, hR]
          exact ih (p :: t1) t2 (by simp at hlen ⊢; omega) hvim hm'

/-- Claim C10: for every joint state and every value map (both the variable
index map and the value map ascending in their keys with no duplicates, as a
`std::map` iterates), the overload of `setVariableValues` that collects
missing names and the overload without it produce identical final joint
states — in particular identical stored values and variable transforms — and
the two iteration branches of the latter (over the value map or over the
index map) agree on values and update flag, so the branch choice does not
affect the result. -/
theorem setVariableValuesMap_overloads_agree {τ : Type} (s : JointState τ)
    (m : List (String × ℚ))
    (hvim : s.jointModel.variableIndexMap.Pairwise (fun p q => p.1 < q.1))
    (hm : m.Pairwise (fun p q => p.1 < q.1)) :
    (setVariableValuesMapWithMissing s m).1 = setVariableValuesMap s m ∧
      applyFromValueMap s.jointModel.variableIndexMap m s.jointStateValues =
        applyFromIndexMapNoMissing m s.jointModel.variableIndexMap
          s.jointStateValues := by
  have hcomm := mapWrites_comm (s.jointModel.variableIndexMap.length + m.length)
    s.jointModel.variableIndexMap m (le_refl _) hvim hm
  have hbranch : applyFromValueMap s.jointModel.variableIndexMap m
      s.jointStateValues =
      applyFromIndexMapNoMissing m s.jointModel.variableIndexMap
        s.jointStateValues := by
    rw [applyFromValueMap_char, applyFromIndexMapNoMissing_char, ← hcomm]
  refine ⟨?_, hbranch⟩
  obtain ⟨hA1, hA2⟩ := applyFromIndexMap_char m s.jointModel.variableIndexMap
    s.jointStateValues
  simp only [setVariableValuesMapWithMissing, setVariableValuesMap]
  have hif : (if m.length ≤ s.jointModel.variableIndexMap.length then
      applyFromValueMap s.jointModel.variableIndexMap m s.jointStateValues
    else
      applyFromIndexMapNoMissing m s.jointModel.variableIndexMap
        s.jointStateValues) =
      applyFromIndexMapNoMissing m s.jointModel.variableIndexMap
        s.jointStateValues := by
    by_cases hc : m.length ≤ s.jointModel.variableIndexMap.length
    · rw [if_pos hc, hbranch]
    · rw [if_neg hc]
  rw [hif, applyFromIndexMapNoMissing_char, hA1, hA2]
  by_cases hE : (mapWrites s.jointModel.variableIndexMap m).isEmpty <;>
    simp [hE]

/-- Witness for claim C10 at a concrete one-variable joint state and a
singleton value map. -/
theorem setVariableValuesMap_overloads_agree_witness :
    (setVariableValuesMapWithMissing fixtureJointState [("a", 5)]).1 =
        setVariableValuesMap fixtureJointState [("a", 5)] ∧
      applyFromValueMap fixtureJointState.jointModel.variableIndexMap
          [("a", 5)] fixtureJointState.jointStateValues =
        applyFromIndexMapNoMissing [("a", 5)]
          fixtureJointState.jointModel.variableIndexMap
          fixtureJointState.jointStateValues :=
  setVariableValuesMap_overloads_agree fixtureJointState [("a", 5)]
    (by decide) (by decide)
